import Mathlib

/-!
# Verification of the phpstan-vscode check-orchestration core

Shallow embedding of the check orchestration engine of the `phpstan-vscode`
language server:

* `Hover` — the hover provider and the report registry
  (`src/unnamed/part_000`: `createHoverProvider`, `HoverProviderCheckHooks`);
* `Manager` — the `PHPStanCheckManager`
  (`src/server/src/lib/phpstan/manager.ts`);
* `Gate` — the per-key recursive promise chain
  (`_withRecursivePromise` / `_getFilePromise` in the manager).

JavaScript `Record` objects are embedded as association lists, fallible
platform calls (`fs.readFile`, `JSON.parse`) as `Option`-valued oracles, and
the single-threaded async scheduler as explicit event traces.  Definitions
come first, all theorems follow.
-/

namespace Hover

/-- A 0-based line/char position, as in the LSP protocol and in the report
file's `pos.start` / `pos.end` objects. -/
structure Pos where
  line : Nat
  char : Nat
deriving DecidableEq, Repr

/-- The `pos` field of a `VariableData` record.  The source field `end` is a
reserved word in Lean and is embedded as `endPos`. -/
structure PosRange where
  start : Pos
  endPos : Pos
deriving DecidableEq, Repr

/-- `VariableData` from `src/unnamed/part_000` (lines 21-34): one variable
occurrence reported by the tree fetcher. -/
structure VariableData where
  typeDescription : String
  name : String
  pos : PosRange
deriving DecidableEq, Repr

/-- `FileReport` from `src/unnamed/part_000` (lines 36-39). -/
structure FileReport where
  timestamp : Nat
  data : List VariableData
deriving DecidableEq, Repr

/-- `ReporterFile` (`Record<string, FileReport>`), embedded as an association
list from absolute source file path to `FileReport`. -/
abbrev ReporterFile := List (String × FileReport)

/-- First-match lookup in an association list, the embedding of JavaScript
property access `obj[key]` (absent key gives `undefined`, i.e. `none`). -/
def alistLookup {α : Type} (l : List (String × α)) (k : String) : Option α :=
  match l with
  | [] => none
  | (k', v) :: rest => if k' = k then some v else alistLookup rest k

/-- The match test of the hover loop in `createHoverProvider`
(`src/unnamed/part_000`, lines 99-103):
`type.pos.start.line === position.line && type.pos.start.char < position.character && type.pos.end.char > position.character`. -/
def variableMatches (v : VariableData) (line char : Nat) : Bool :=
  v.pos.start.line == line && v.pos.start.char < char && v.pos.endPos.char > char

/-- The scan of the hover loop (`for const type of ... if (...) return ...`):
the first record of the queried file's data whose match test succeeds. -/
def findHover (data : List VariableData) (line char : Nat) : Option VariableData :=
  match data with
  | [] => none
  | v :: rest =>
    if variableMatches v line char then some v else findHover rest line char

/-- Outcome of `waitPeriodical` in `createHoverProvider` (lines 62-77):
`'cancel'`, `'checkDone'`, or `null` (budget exceeded). -/
inductive WaitOutcome
  | cancel
  | checkDone
  | timedOut
deriving DecidableEq, Repr

/-- The hover request handler returned by `createHoverProvider`
(`src/unnamed/part_000`, lines 47-113), embedded over oracles for the
asynchronous environment: `workspaceFolder` (the `getWorkspaceFolder()`
result), `cancelledAtStart` / `cancelledAfterRead` (the two observations of
`cancelToken.isCancellationRequested`), `waitResult` (the `waitPeriodical`
outcome), and `reporterRead` (the joint result of `fs.readFile` +
`JSON.parse` on `reported.json`: `none` when either throws).  A thrown read
error propagates out of the handler, embedded as `Except.error`.

Modelled from the spec: the constant `NO_CANCEL_OPERATIONS`
(`shared/constants`, not under `src/`) is taken as `false` — §4.6 requires
that a signalled cancellation yields the outcome "cancelled", so the
cancellation checks are active. -/
def hoverHandler (workspaceFolder : Option String)
    (cancelledAtStart : Bool) (waitResult : WaitOutcome)
    (reporterRead : Option ReporterFile) (cancelledAfterRead : Bool)
    (fsPath : String) (line char : Nat) :
    Except Unit (Option VariableData) :=
  match workspaceFolder with
  | none => .ok none
  | some _ =>
    if cancelledAtStart then .ok none
    else match waitResult with
      | .cancel => .ok none
      | .timedOut => .ok none
      | .checkDone =>
        match reporterRead with
        | none => .error ()
        | some reporterFile =>
          if cancelledAfterRead then .ok none
          else
            let data := match alistLookup reporterFile fsPath with
              | some report => report.data
              | none => []
            .ok (findHover data line char)

/-- One entry of `HoverProviderCheckHooks._operationMap`
(`src/unnamed/part_000`, lines 117-123). -/
structure Reservation where
  reportPath : String
  sourceFilePath : String
deriving DecidableEq, Repr

/-- The static state of `HoverProviderCheckHooks` that `_getFileReport`
touches: the `_operationMap` reservation table. -/
structure HooksState where
  operationMap : List (String × Reservation)
deriving DecidableEq, Repr

/-- `Map.delete(uri)`: remove the binding for a key. -/
def alistErase {α : Type} (l : List (String × α)) (k : String) :
    List (String × α) :=
  match l with
  | [] => []
  | (k', v) :: rest =>
    if k' = k then alistErase rest k else (k', v) :: alistErase rest k

/-- `HoverProviderCheckHooks._getFileReport` (`src/unnamed/part_000`,
lines 126-144): no reservation gives `null` with no side effect; otherwise
the reservation is deleted, the report file is read and parsed (the oracle
`world` maps a path to the parsed `ReporterFile`, `none` when `fs.readFile`
or `JSON.parse` throws — the `catch` returns `null`), and the record for the
reserved `sourceFilePath` is returned. -/
def getFileReport (world : String → Option ReporterFile)
    (s : HooksState) (uri : String) : Option FileReport × HooksState :=
  match alistLookup s.operationMap uri with
  | none => (none, s)
  | some m =>
    match world m.reportPath with
    | none => (none, ⟨alistErase s.operationMap uri⟩)
    | some parsed =>
      (alistLookup parsed m.sourceFilePath, ⟨alistErase s.operationMap uri⟩)

end Hover

namespace Manager

/-- Modelled from the spec: `basicHash` (`shared/util`, not under `src/`)
computes a fixed-size content digest "used only for equality comparison,
never decoded" (§3, ContentHash).  Embedded as a simple fold rendered as a
digit string; the leading `'h'` records that a digest is never the empty
string (a real digest has fixed positive size). -/
def basicHash (content : String) : String :=
  String.mk ('h' :: (toString (content.data.foldl
    (fun acc c => acc * 131 + c.toNat) 7)).data)

/-- `CheckOperation` from `manager.ts` (lines 32-35): the active check's
runner (embedded as a numeric id) and the content hashes captured when it
started (`Record<string, string>` as an association list). -/
structure CheckOperation where
  check : Nat
  hashes : List (String × String)
deriving DecidableEq, Repr

/-- The fields of `PHPStanCheckManager` that the claims touch:
`_operation`, `_filePromises` (kept abstract as an association list from key
to chain-node id — only its preservation matters here), plus bookkeeping for
runner identity: `nextCheckId` numbers the `new PHPStanCheck(...)`
allocations and `disposedChecks` records every runner whose `dispose()` was
called. -/
structure ManagerState where
  operation : Option CheckOperation
  filePromises : List (String × Nat)
  nextCheckId : Nat
  disposedChecks : List Nat
deriving DecidableEq, Repr

/-- Primitive effects of the manager's methods, in program order.
`awaitTeardown` (waiting for a disposed runner's teardown to complete)
exists only to state that it is never emitted. -/
inductive MAction
  | disposeCheck (id : Nat)
  | clearSlot
  | createCheck (id : Nat)
  | installOperation (op : CheckOperation)
  | clearReport
  | awaitTeardown
deriving DecidableEq, Repr

def applyAction (s : ManagerState) : MAction → ManagerState
  | .disposeCheck i => { s with disposedChecks := i :: s.disposedChecks }
  | .clearSlot => { s with operation := none }
  | .createCheck _ => { s with nextCheckId := s.nextCheckId + 1 }
  | .installOperation op => { s with operation := some op }
  | .clearReport => s
  | .awaitTeardown => s

def runActions (s : ManagerState) : List MAction → ManagerState
  | [] => s
  | a :: rest => runActions (applyAction s a) rest

/-- All states visited while executing a list of actions, initial state
included. -/
def trajectory (s : ManagerState) : List MAction → List ManagerState
  | [] => [s]
  | a :: rest => s :: trajectory (applyAction s a) rest

/-- The hash snapshot computed at the start of `_checkShared`
(lines 116-121): `hashes[uri] = basicHash(content)` for every open
document. -/
def computeHashes (docs : List (String × String)) : List (String × String) :=
  docs.map (fun d => (d.1, basicHash d.2))

/-- The synchronous prefix of `checkProject()` (lines 199-210) through the
installation of the new operation in `_checkShared` (lines 109-125): if an
operation is active, dispose its runner and clear the slot; then create the
new `PHPStanCheck` and install it together with the fresh hash snapshot. -/
def checkProjectActions (s : ManagerState) (docs : List (String × String)) :
    List MAction :=
  (match s.operation with
   | some op => [.disposeCheck op.check, .clearSlot]
   | none => []) ++
  [.createCheck s.nextCheckId,
   .installOperation ⟨s.nextCheckId, computeHashes docs⟩]

/-- Number of runners that have been created and not disposed. -/
def aliveCount (s : ManagerState) : Nat :=
  ((List.range s.nextCheckId).filter
    (fun i => !s.disposedChecks.contains i)).length

/-- Whether a call routes into a new check.  `noCheck` is the bare `return`,
`projectCheck` is `return this.checkProject()`. -/
inductive CheckDecision
  | noCheck
  | projectCheck
deriving DecidableEq, Repr

/-- `checkProjectIfFileChanged` (`manager.ts`, lines 212-229), as the
decision it takes.  JavaScript truthiness is embedded literally:
`!fileContent` is true for `undefined` (`none`) and for the empty string,
and `this._operation.hashes[uri] &&` is true only for a present, non-empty
stored hash. -/
def checkProjectIfFileChanged (s : ManagerState) (uri : String)
    (fileContent : Option String) : CheckDecision :=
  match s.operation with
  | none => .projectCheck
  | some op =>
    match fileContent with
    | none => .noCheck
    | some content =>
      if content = "" then .noCheck
      else
        match Hover.alistLookup op.hashes uri with
        | none => .noCheck
        | some h =>
          if h ≠ "" ∧ h ≠ basicHash content then .projectCheck else .noCheck

/-- `checkType` of a `PHPStanCheck` (`'file' | 'project'`). -/
inductive CheckType
  | file
  | project
deriving DecidableEq, Repr

/-- The `timeout` / `projectTimeout` settings from configuration (§6). -/
structure TimeoutConfig where
  timeout : Nat
  projectTimeout : Nat
deriving DecidableEq, Repr

/-- The deadline selection in `_checkShared` (lines 148-149):
`checkType === 'file' ? config.timeout : config.projectTimeout`. -/
def timeoutFor (checkType : CheckType) (config : TimeoutConfig) : Nat :=
  match checkType with
  | .file => config.timeout
  | .project => config.projectTimeout

/-- `OperationStatus` (`shared/statusBar`, not under `src/`).  Modelled from
the spec: §6 gives `status ∈ {success, error, killed}`. -/
inductive OperationStatus
  | success
  | error
  | killed
deriving DecidableEq, Repr

/-- `ReturnResult` (`src/server/src/lib/phpstan/result.ts`, not under
`src/`).  Modelled from the spec: a check's terminal result is success,
cancelled, errored, or the distinguished result produced by
`ReturnResult.killed()` (§4.2, §7). -/
inductive CheckResult
  | success
  | killed
  | canceled
  | errored
deriving DecidableEq, Repr

/-- Modelled from the spec: `result.status` projects a terminal result onto
the progress-surface status (§6, §7: timeout is reported as `killed`,
analysis errors as results rather than `error`). -/
def resultStatus : CheckResult → OperationStatus
  | .success => .success
  | .killed => .killed
  | .canceled => .killed
  | .errored => .error

/-- Observable effects of the check phase of `_checkShared`
(lines 138-170).  `stopOperation` (forcibly stopping the in-flight
`check.check(...)` operation) exists only to state that it is never
emitted. -/
inductive SharedAction
  | disposeRunner
  | notifyTimeout
  | finishProgress (st : OperationStatus)
  | logCompleted
  | stopOperation
deriving DecidableEq, Repr

/-- The check phase of `_checkShared` (lines 138-170) under `withTimeout`.

Modelled from the spec: `withTimeout` (`shared/util`, not under `src/`)
races the operation against the deadline; if the operation settles first its
result is returned untouched, and if the timer fires first the `onTimeout`
callback runs and its sentinel result is returned, the operation itself not
being forcibly stopped (§4.2).  The race's winner is the oracle
`timerFires`.  The `onTimeout` body is taken literally from lines 150-156:
`check.dispose()`, `void this._onTimeout(check)` (the timeout notification
and log), `await operation.finish(OperationStatus.KILLED)`, then
`return ReturnResult.killed()`.  After the race, lines 162-170 run
`operation.finish(result.status)` and the completion log.  Returns the
deadline passed to `withTimeout`, the emitted actions, and the overall
result. -/
def checkSharedOutcome (checkType : CheckType) (config : TimeoutConfig)
    (timerFires : Bool) (opResult : CheckResult) :
    Nat × List SharedAction × CheckResult :=
  let deadline := timeoutFor checkType config
  if timerFires then
    (deadline,
     [.disposeRunner, .notifyTimeout, .finishProgress .killed,
      .finishProgress (resultStatus .killed), .logCompleted],
     .killed)
  else
    (deadline,
     [.finishProgress (resultStatus opResult), .logCompleted],
     opResult)

/-- `dispose()` (`manager.ts`, lines 236-239):
`this._operation?.check.dispose(); this._operation = null;`.  Returns the
emitted actions and the new state; nothing touches `_filePromises` and no
action awaits the runner's teardown. -/
def dispose (s : ManagerState) : List MAction × ManagerState :=
  match s.operation with
  | some op =>
    ([.disposeCheck op.check],
     { s with operation := none,
              disposedChecks := op.check :: s.disposedChecks })
  | none => ([], { s with operation := none })

/-- `clear()` (`manager.ts`, lines 231-234): `this.dispose()` followed by
`this._config.hooks.provider.clearReport()`.  The `clearReport` action is
the instruction to the report-provider hook to discard retained report
state (`ProviderCheckHooks.clearReport` itself is not under `src/`). -/
def clear (s : ManagerState) : List MAction × ManagerState :=
  let d := dispose s
  (d.1 ++ [.clearReport], d.2)

end Manager

namespace Gate

/-- The per-key recursive promise chain of the manager, projected onto one
fixed key (entries of `_filePromises` for distinct keys never interact).
Node `i` is the `PromiseObject<RecursivePromiseObject>` created by the
`i`-th `_withRecursivePromise` call for the key.  `res i` is its resolution
state: `none` = still pending, `some none` = resolved with `null` (its
operation settled first), `some (some j)` = resolved with node `j` (it was
superseded by the `j`-th chain call).  `tail` is the node currently stored
in `_filePromises` for the key, `settled i` whether the `i`-th chained
operation has settled. -/
structure State where
  nextId : Nat
  res : Nat → Option (Option Nat)
  tail : Option Nat
  settled : Nat → Bool

/-- The state with no chain for the key (`_filePromises.has(uri)` false). -/
def State.init : State :=
  { nextId := 0, res := fun _ => none, tail := none, settled := fun _ => false }

/-- Scheduler events: `chain` is one `_withRecursivePromise(uri, op)` call
(lines 183-197); `settle i` is the settlement of the `i`-th chained
operation, whose `.then` handler runs `promise.resolve(null)`
(lines 194-196). -/
inductive Event
  | chain
  | settle (i : Nat)
deriving DecidableEq, Repr

/-- `PromiseObject.resolve`: a promise resolves at most once — resolving an
already-resolved promise is a no-op. -/
def resolveTo (res : Nat → Option (Option Nat)) (i : Nat) (v : Option Nat) :
    Nat → Option (Option Nat) :=
  fun j =>
    if j = i then
      match res i with
      | none => some v
      | some w => some w
    else res j

/-- One scheduler step.  `chain` creates the fresh node, resolves the
previous tail into it (`prevPromise.resolve(promise)`) and stores it as the
new tail (`this._filePromises.set(uri, promise)`).  `settle i` marks the
`i`-th operation settled and resolves its node with `null`. -/
def step (s : State) : Event → State
  | .chain =>
    let n := s.nextId
    { nextId := n + 1
      res :=
        match s.tail with
        | some p => resolveTo s.res p (some n)
        | none => s.res
      tail := some n
      settled := s.settled }
  | .settle i =>
    if i < s.nextId then
      { s with
        res := resolveTo s.res i none
        settled := fun j => if j = i then true else s.settled j }
    else s

def run (s : State) : List Event → State
  | [] => s
  | e :: rest => run (step s e) rest

/-- Number of `chain` events in a trace — the number of operations chained
on the key. -/
def chainCount : List Event → Nat
  | [] => 0
  | .chain :: rest => chainCount rest + 1
  | .settle _ :: rest => chainCount rest

/-- Resolved-pointer reachability between chain nodes. -/
inductive Reaches (res : Nat → Option (Option Nat)) : Nat → Nat → Prop
  | refl (i : Nat) : Reaches res i i
  | step {i j k : Nat} : res i = some (some j) → Reaches res j k →
      Reaches res i k

/-- The `do { obj = await obj.promise } while (obj !== null)` loop of
`_getFilePromise` (lines 173-181) terminates when started at node `i`: the
resolved pointers from `i` lead to a node resolved with `null`. -/
inductive DoneFrom (res : Nat → Option (Option Nat)) : Nat → Prop
  | stop {i : Nat} : res i = some none → DoneFrom res i
  | step {i j : Nat} : res i = some (some j) → DoneFrom res j →
      DoneFrom res i

/-- Reachable-state invariant of the chain. -/
structure Inv (s : State) : Prop where
  oob : ∀ i, s.nextId ≤ i → s.res i = none
  tail_lt : ∀ t, s.tail = some t → t < s.nextId
  tail_of_none : s.tail = none → s.nextId = 0
  tail_res : ∀ t, s.tail = some t → s.res t = none ∨ s.res t = some none
  settled_null : ∀ i, s.res i = some none → s.settled i = true
  unresolved_tail : ∀ i, i < s.nextId → s.res i = none → s.tail = some i
  front : ∀ k, k < s.nextId → DoneFrom s.res k ∨
    ∃ t, s.tail = some t ∧ Reaches s.res k t ∧ s.res t = none

end Gate

namespace Gate

theorem resolveTo_mono {res : Nat → Option (Option Nat)} {i : Nat}
    {v : Option Nat} {j : Nat} {w : Option Nat} (h : res j = some w) :
    resolveTo res i v j = some w := by
  unfold resolveTo
  by_cases hj : j = i
  · subst hj
    rw [if_pos rfl, h]
  · rw [if_neg hj]
    exact h

theorem resolveTo_of_resolved {res : Nat → Option (Option Nat)} {i : Nat}
    {v : Option Nat} {w : Option Nat} (h : res i = some w) :
    resolveTo res i v = res := by
  funext j
  unfold resolveTo
  by_cases hj : j = i
  · subst hj
    rw [if_pos rfl, h]
  · rw [if_neg hj]

theorem resolveTo_self {res : Nat → Option (Option Nat)} {i : Nat}
    {v : Option Nat} (h : res i = none) : resolveTo res i v i = some v := by
  unfold resolveTo
  rw [if_pos rfl, h]

theorem resolveTo_ne {res : Nat → Option (Option Nat)} {i : Nat}
    {v : Option Nat} {j : Nat} (h : j ≠ i) : resolveTo res i v j = res j := by
  unfold resolveTo
  rw [if_neg h]

theorem reaches_mono {res res' : Nat → Option (Option Nat)}
    (hm : ∀ i v, res i = some v → res' i = some v) {a b : Nat}
    (h : Reaches res a b) : Reaches res' a b := by
  induction h with
  | refl i => exact .refl i
  | step hij _ ih => exact .step (hm _ _ hij) ih

theorem doneFrom_mono {res res' : Nat → Option (Option Nat)}
    (hm : ∀ i v, res i = some v → res' i = some v) {a : Nat}
    (h : DoneFrom res a) : DoneFrom res' a := by
  induction h with
  | stop hi => exact .stop (hm _ _ hi)
  | step hij _ ih => exact .step (hm _ _ hij) ih

theorem reaches_snoc {res : Nat → Option (Option Nat)} {a b c : Nat}
    (h : Reaches res a b) (hb : res b = some (some c)) : Reaches res a c := by
  induction h with
  | refl i => exact .step hb (.refl c)
  | step hij _ ih => exact .step hij (ih hb)

theorem doneFrom_of_reaches {res : Nat → Option (Option Nat)} {a b : Nat}
    (h : Reaches res a b) (hb : DoneFrom res b) : DoneFrom res a := by
  induction h with
  | refl i => exact hb
  | step hij _ ih => exact .step hij (ih hb)

theorem doneFrom_reaches {res : Nat → Option (Option Nat)} {a b : Nat}
    (hd : DoneFrom res a) (h : Reaches res a b) : DoneFrom res b := by
  induction h with
  | refl i => exact hd
  | step hij hr ih =>
    apply ih
    cases hd with
    | stop hi => rw [hi] at hij; cases hij
    | step hij' hd' =>
      rw [hij'] at hij
      cases hij
      exact hd'

theorem step_res_mono {s : State} (e : Event) {j : Nat} {w : Option Nat}
    (h : s.res j = some w) : (step s e).res j = some w := by
  cases e with
  | chain =>
    show (match s.tail with
      | some p => resolveTo s.res p (some s.nextId)
      | none => s.res) j = some w
    cases htail : s.tail with
    | none => exact h
    | some p => exact resolveTo_mono h
  | settle i =>
    unfold step
    by_cases hi : i < s.nextId
    · simp only [hi, if_true]
      exact resolveTo_mono h
    · simp only [hi, if_false]
      exact h

theorem run_res_mono {t : List Event} {s : State} {j : Nat} {w : Option Nat}
    (h : s.res j = some w) : (run s t).res j = some w := by
  induction t generalizing s with
  | nil => exact h
  | cons e rest ih => exact ih (step_res_mono e h)

theorem step_nextId_mono {s : State} (e : Event) :
    s.nextId ≤ (step s e).nextId := by
  cases e with
  | chain => exact Nat.le_succ _
  | settle i =>
    unfold step
    by_cases hi : i < s.nextId <;> simp [hi]

theorem run_nextId_mono {t : List Event} {s : State} :
    s.nextId ≤ (run s t).nextId := by
  induction t generalizing s with
  | nil => exact le_rfl
  | cons e rest ih => exact le_trans (step_nextId_mono e) ih

theorem step_settle_nextId {s : State} (i : Nat) :
    (step s (.settle i)).nextId = s.nextId := by
  unfold step
  by_cases hi : i < s.nextId <;> simp [hi]

theorem step_settle_tail {s : State} (i : Nat) :
    (step s (.settle i)).tail = s.tail := by
  unfold step
  by_cases hi : i < s.nextId <;> simp [hi]

theorem step_chain_tail {s : State} :
    (step s .chain).tail = some s.nextId := rfl

theorem step_chain_nextId {s : State} :
    (step s .chain).nextId = s.nextId + 1 := rfl

end Gate

namespace Gate

theorem inv_init : Inv State.init := by
  refine ⟨?_, ?_, ?_, ?_, ?_, ?_, ?_⟩
  · intro i _
    rfl
  · intro t h
    simp [State.init] at h
  · intro _
    rfl
  · intro t h
    simp [State.init] at h
  · intro i h
    simp [State.init] at h
  · intro i hi _
    exact absurd hi (Nat.not_lt_zero i)
  · intro k hk
    exact absurd hk (Nat.not_lt_zero k)

theorem inv_step {s : State} (hs : Inv s) (e : Event) : Inv (step s e) := by
  cases e with
  | chain =>
    have hnext : (step s .chain).nextId = s.nextId + 1 := rfl
    have htl : (step s .chain).tail = some s.nextId := rfl
    have hstl : (step s .chain).settled = s.settled := rfl
    cases htail : s.tail with
    | none =>
      have hzero : s.nextId = 0 := hs.tail_of_none htail
      have hres : (step s .chain).res = s.res := by
        show (match s.tail with
          | some p => resolveTo s.res p (some s.nextId)
          | none => s.res) = s.res
        rw [htail]
      refine ⟨?_, ?_, ?_, ?_, ?_, ?_, ?_⟩
      · intro i hi
        rw [hres]
        exact hs.oob i (by omega)
      · intro t ht
        rw [htl] at ht
        injection ht with ht
        omega
      · intro h
        rw [htl] at h
        cases h
      · intro t ht
        rw [htl] at ht
        injection ht with ht
        subst ht
        left
        rw [hres]
        exact hs.oob s.nextId le_rfl
      · intro i h
        rw [hres] at h
        rw [hstl]
        exact hs.settled_null i h
      · intro i hi hresi
        rw [hnext, hzero] at hi
        have hieq : i = s.nextId := by omega
        rw [htl, hieq]
      · intro k hk
        rw [hnext, hzero] at hk
        have hks : k = s.nextId := by omega
        subst hks
        right
        refine ⟨s.nextId, htl, .refl s.nextId, ?_⟩
        rw [hres]
        exact hs.oob s.nextId le_rfl
    | some p =>
      have hp : p < s.nextId := hs.tail_lt p htail
      have hres : (step s .chain).res = resolveTo s.res p (some s.nextId) := by
        show (match s.tail with
          | some q => resolveTo s.res q (some s.nextId)
          | none => s.res) = resolveTo s.res p (some s.nextId)
        rw [htail]
      cases hs.tail_res p htail with
      | inl hpn =>
        have hresp : (step s .chain).res p = some (some s.nextId) := by
          rw [hres]
          exact resolveTo_self hpn
        have hresne : ∀ j, j ≠ p → (step s .chain).res j = s.res j := by
          intro j hj
          rw [hres]
          exact resolveTo_ne hj
        have hresn : (step s .chain).res s.nextId = none := by
          rw [hresne s.nextId (by omega)]
          exact hs.oob s.nextId le_rfl
        have hmono : ∀ i v, s.res i = some v →
            (step s .chain).res i = some v := by
          intro i v h
          rw [hres]
          exact resolveTo_mono h
        refine ⟨?_, ?_, ?_, ?_, ?_, ?_, ?_⟩
        · intro i hi
          rw [hresne i (by omega)]
          exact hs.oob i (by omega)
        · intro t ht
          rw [htl] at ht
          injection ht with ht
          omega
        · intro h
          rw [htl] at h
          cases h
        · intro t ht
          rw [htl] at ht
          injection ht with ht
          subst ht
          left
          exact hresn
        · intro i h
          rw [hstl]
          by_cases hip : i = p
          · subst hip
            rw [hresp] at h
            simp at h
          · rw [hresne i hip] at h
            exact hs.settled_null i h
        · intro i hi hresi
          rw [hnext] at hi
          by_cases hin : i = s.nextId
          · rw [htl, hin]
          · have hilt : i < s.nextId := by omega
            have hip : i ≠ p := by
              intro h
              rw [h, hresp] at hresi
              cases hresi
            rw [hresne i hip] at hresi
            have hti := hs.unresolved_tail i hilt hresi
            rw [htail] at hti
            injection hti with hti
            exact absurd hti.symm hip
        · intro k hk
          rw [hnext] at hk
          by_cases hkn : k = s.nextId
          · subst hkn
            right
            exact ⟨s.nextId, htl, .refl s.nextId, hresn⟩
          · have hklt : k < s.nextId := by omega
            cases hs.front k hklt with
            | inl hd =>
              left
              exact doneFrom_mono hmono hd
            | inr hpend =>
              obtain ⟨t, ht, hr, hrt⟩ := hpend
              rw [htail] at ht
              injection ht with ht
              subst ht
              right
              refine ⟨s.nextId, htl, ?_, hresn⟩
              exact reaches_snoc (reaches_mono hmono hr) hresp
      | inr hpn =>
        have hres2 : (step s .chain).res = s.res := by
          rw [hres]
          exact resolveTo_of_resolved hpn
        refine ⟨?_, ?_, ?_, ?_, ?_, ?_, ?_⟩
        · intro i hi
          rw [hres2]
          exact hs.oob i (by omega)
        · intro t ht
          rw [htl] at ht
          injection ht with ht
          omega
        · intro h
          rw [htl] at h
          cases h
        · intro t ht
          rw [htl] at ht
          injection ht with ht
          subst ht
          left
          rw [hres2]
          exact hs.oob s.nextId le_rfl
        · intro i h
          rw [hres2] at h
          rw [hstl]
          exact hs.settled_null i h
        · intro i hi hresi
          rw [hnext] at hi
          by_cases hin : i = s.nextId
          · rw [htl, hin]
          · have hilt : i < s.nextId := by omega
            rw [hres2] at hresi
            have hti := hs.unresolved_tail i hilt hresi
            rw [htail] at hti
            injection hti with hti
            subst hti
            rw [hpn] at hresi
            cases hresi
        · intro k hk
          rw [hnext] at hk
          by_cases hkn : k = s.nextId
          · subst hkn
            right
            refine ⟨s.nextId, htl, .refl s.nextId, ?_⟩
            rw [hres2]
            exact hs.oob s.nextId le_rfl
          · have hklt : k < s.nextId := by omega
            cases hs.front k hklt with
            | inl hd =>
              left
              rw [hres2]
              exact hd
            | inr hpend =>
              obtain ⟨t, ht, hr, hrt⟩ := hpend
              rw [htail] at ht
              injection ht with ht
              subst ht
              rw [hpn] at hrt
              cases hrt
  | settle i =>
    have hstep : step s (Event.settle i) =
        if i < s.nextId then
          { s with
            res := resolveTo s.res i none
            settled := fun j => if j = i then true else s.settled j }
        else s := rfl
    rw [hstep]
    by_cases hi : i < s.nextId
    · rw [if_pos hi]
      cases hcase : s.res i with
      | some w =>
        have hres2 : resolveTo s.res i none = s.res :=
          resolveTo_of_resolved hcase
        rw [hres2]
        refine ⟨?_, ?_, ?_, ?_, ?_, ?_, ?_⟩ <;> dsimp only
        · exact hs.oob
        · exact hs.tail_lt
        · exact hs.tail_of_none
        · exact hs.tail_res
        · intro j h
          by_cases hji : j = i
          · simp [hji]
          · simp only [if_neg hji]
            exact hs.settled_null j h
        · exact hs.unresolved_tail
        · exact hs.front
      | none =>
        have htl2 : s.tail = some i := hs.unresolved_tail i hi hcase
        have hresi : resolveTo s.res i none i = some none :=
          resolveTo_self hcase
        have hresne : ∀ j, j ≠ i → resolveTo s.res i none j = s.res j :=
          fun j hj => resolveTo_ne hj
        have hmono : ∀ j v, s.res j = some v →
            resolveTo s.res i none j = some v :=
          fun j v h => resolveTo_mono h
        refine ⟨?_, ?_, ?_, ?_, ?_, ?_, ?_⟩ <;> dsimp only
        · intro j hj
          rw [hresne j (by omega)]
          exact hs.oob j hj
        · exact hs.tail_lt
        · exact hs.tail_of_none
        · intro t ht
          rw [htl2] at ht
          injection ht with ht
          subst ht
          right
          exact hresi
        · intro j h
          by_cases hji : j = i
          · simp [hji]
          · simp only [if_neg hji]
            rw [hresne j hji] at h
            exact hs.settled_null j h
        · intro j hj hresj
          by_cases hji : j = i
          · rw [hji, hresi] at hresj
            cases hresj
          · rw [hresne j hji] at hresj
            exact hs.unresolved_tail j hj hresj
        · intro k hk
          cases hs.front k hk with
          | inl hd =>
            left
            exact doneFrom_mono hmono hd
          | inr hpend =>
            obtain ⟨t, ht, hr, hrt⟩ := hpend
            rw [htl2] at ht
            injection ht with ht
            subst ht
            left
            exact doneFrom_of_reaches (reaches_mono hmono hr) (.stop hresi)
    · rw [if_neg hi]
      exact hs

theorem inv_run {t : List Event} {s : State} (hs : Inv s) : Inv (run s t) := by
  induction t generalizing s with
  | nil => exact hs
  | cons e rest ih => exact ih (inv_step hs e)

end Gate

namespace Gate

theorem run_tail_of_chainFree {t : List Event} {s : State}
    (h : ∀ e ∈ t, e ≠ Event.chain) : (run s t).tail = s.tail := by
  induction t generalizing s with
  | nil => rfl
  | cons e rest ih =>
    cases e with
    | chain => exact absurd rfl (h .chain (by simp))
    | settle i =>
      rw [show run s (Event.settle i :: rest) = run (step s (.settle i)) rest
        from rfl]
      rw [ih (fun e he => h e (by simp [he])), step_settle_tail]

theorem run_nextId_eq {t : List Event} {s : State} :
    (run s t).nextId = s.nextId + chainCount t := by
  induction t generalizing s with
  | nil => rfl
  | cons e rest ih =>
    cases e with
    | chain =>
      show (run (step s .chain) rest).nextId = s.nextId + (chainCount rest + 1)
      rw [ih, step_chain_nextId]
      omega
    | settle i =>
      show (run (step s (.settle i)) rest).nextId = s.nextId + chainCount rest
      rw [ih, step_settle_nextId]

theorem chainCount_zero_chainFree {t : List Event} (h : chainCount t = 0) :
    ∀ e ∈ t, e ≠ Event.chain := by
  induction t with
  | nil => intro e he; cases he
  | cons e rest ih =>
    cases e with
    | chain => cases h
    | settle i =>
      intro e' he'
      rcases List.mem_cons.mp he' with he' | he'
      · subst he'
        intro hc
        cases hc
      · exact ih h e' he'

theorem run_tail_of_chains {t : List Event} {s : State}
    (h : 1 ≤ chainCount t) :
    (run s t).tail = some ((run s t).nextId - 1) := by
  induction t generalizing s with
  | nil => cases h
  | cons e rest ih =>
    cases e with
    | chain =>
      show (run (step s .chain) rest).tail
        = some ((run (step s .chain) rest).nextId - 1)
      by_cases hc : 1 ≤ chainCount rest
      · exact ih hc
      · have hzero : chainCount rest = 0 := by omega
        rw [run_tail_of_chainFree (chainCount_zero_chainFree hzero),
          step_chain_tail, run_nextId_eq, hzero, step_chain_nextId]
        congr 1
    | settle i =>
      show (run (step s (.settle i)) rest).tail
        = some ((run (step s (.settle i)) rest).nextId - 1)
      exact ih h

end Gate

/-- **C1**: For every key, if N operations are chained in order via
`_withRecursivePromise`, a `_getFilePromise` call issued after all N chain
calls (it starts at the tail node, node N-1) resolves only after the N-th
operation settles; and a waiter still pending when a superseding chain call
arrives resolves only after the superseding (latest) chained operation
settles — the last request's result is authoritative for all pending
waiters on the key. -/
theorem C1_chain_fifo_last_wins :
    (∀ (t1 t2 : List Gate.Event),
      1 ≤ Gate.chainCount t1 →
      (∀ e ∈ t2, e ≠ Gate.Event.chain) →
      Gate.DoneFrom (Gate.run (Gate.run Gate.State.init t1) t2).res
        (Gate.chainCount t1 - 1) →
      (Gate.run (Gate.run Gate.State.init t1) t2).settled
        (Gate.chainCount t1 - 1) = true)
    ∧ (∀ (ta tb tc : List Gate.Event) (k₀ m : Nat),
      (Gate.run Gate.State.init ta).tail = some k₀ →
      (Gate.run (Gate.run Gate.State.init ta) tb).tail = some m →
      ¬ Gate.DoneFrom (Gate.run (Gate.run Gate.State.init ta) tb).res k₀ →
      (∀ e ∈ tc, e ≠ Gate.Event.chain) →
      Gate.DoneFrom
        (Gate.run (Gate.run (Gate.run Gate.State.init ta) tb) tc).res k₀ →
      (Gate.run (Gate.run (Gate.run Gate.State.init ta) tb) tc).settled m
        = true) := by
  constructor
  · intro t1 t2 hN hfree hdone
    have hinv2 : Gate.Inv (Gate.run (Gate.run Gate.State.init t1) t2) :=
      Gate.inv_run (Gate.inv_run Gate.inv_init)
    have hn1 : (Gate.run Gate.State.init t1).nextId = Gate.chainCount t1 := by
      rw [Gate.run_nextId_eq]
      simp [Gate.State.init]
    have htail1 : (Gate.run Gate.State.init t1).tail
        = some (Gate.chainCount t1 - 1) := by
      rw [Gate.run_tail_of_chains hN, hn1]
    have htail2 : (Gate.run (Gate.run Gate.State.init t1) t2).tail
        = some (Gate.chainCount t1 - 1) := by
      rw [Gate.run_tail_of_chainFree hfree, htail1]
    cases hdone with
    | stop h => exact hinv2.settled_null _ h
    | step h hd =>
      rcases hinv2.tail_res _ htail2 with h' | h' <;>
        rw [h] at h' <;> simp at h'
  · intro ta tb tc k₀ m hta htb hpend hfree hdone
    have hinv2 : Gate.Inv (Gate.run (Gate.run Gate.State.init ta) tb) :=
      Gate.inv_run (Gate.inv_run Gate.inv_init)
    have hinv3 : Gate.Inv
        (Gate.run (Gate.run (Gate.run Gate.State.init ta) tb) tc) :=
      Gate.inv_run hinv2
    have hk0 : k₀ < (Gate.run Gate.State.init ta).nextId :=
      (Gate.inv_run Gate.inv_init).tail_lt k₀ hta
    have hk0' : k₀ < (Gate.run (Gate.run Gate.State.init ta) tb).nextId :=
      lt_of_lt_of_le hk0 Gate.run_nextId_mono
    rcases hinv2.front k₀ hk0' with hd | ⟨t, ht, hr, hrt⟩
    · exact absurd hd hpend
    · rw [htb] at ht
      injection ht with ht
      subst ht
      have hr3 : Gate.Reaches
          (Gate.run (Gate.run (Gate.run Gate.State.init ta) tb) tc).res k₀ m :=
        Gate.reaches_mono (fun i v h => Gate.run_res_mono h) hr
      have hdm := Gate.doneFrom_reaches hdone hr3
      have htail3 :
          (Gate.run (Gate.run (Gate.run Gate.State.init ta) tb) tc).tail
            = some m := by
        rw [Gate.run_tail_of_chainFree hfree, htb]
      cases hdm with
      | stop h => exact hinv3.settled_null _ h
      | step h hd' =>
        rcases hinv3.tail_res _ htail3 with h' | h' <;>
          rw [h] at h' <;> simp at h'

/-- Witness for C1: two chained operations followed by the settlement of the
second; the late waiter (and the pending early waiter) resolve, and the
second operation has indeed settled. -/
theorem C1_chain_fifo_last_wins_witness :
    (Gate.run (Gate.run Gate.State.init
        [Gate.Event.chain, Gate.Event.chain]) [Gate.Event.settle 1]).settled 1
      = true
    ∧ (Gate.run (Gate.run (Gate.run Gate.State.init
        [Gate.Event.chain]) [Gate.Event.chain])
        [Gate.Event.settle 1]).settled 1 = true := by
  constructor
  · exact C1_chain_fifo_last_wins.1 [Gate.Event.chain, Gate.Event.chain]
      [Gate.Event.settle 1] (by decide) (by decide)
      (Gate.DoneFrom.stop (by decide))
  · apply C1_chain_fifo_last_wins.2 [Gate.Event.chain] [Gate.Event.chain]
      [Gate.Event.settle 1] 0 1 (by decide) (by decide)
    · intro h
      have h0 : (Gate.run (Gate.run Gate.State.init [Gate.Event.chain])
          [Gate.Event.chain]).res 0 = some (some 1) := by decide
      have h1 : (Gate.run (Gate.run Gate.State.init [Gate.Event.chain])
          [Gate.Event.chain]).res 1 = none := by decide
      cases h with
      | stop hs =>
        rw [h0] at hs
        simp at hs
      | step hs hd =>
        rw [h0] at hs
        injection hs with hs
        injection hs with hs
        subst hs
        cases hd with
        | stop hs' =>
          rw [h1] at hs'
          simp at hs'
        | step hs' hd' =>
          rw [h1] at hs'
          simp at hs'
    · decide
    · have h0 : (Gate.run (Gate.run (Gate.run Gate.State.init
          [Gate.Event.chain]) [Gate.Event.chain]) [Gate.Event.settle 1]).res 0
          = some (some 1) := by decide
      have h1 : (Gate.run (Gate.run (Gate.run Gate.State.init
          [Gate.Event.chain]) [Gate.Event.chain]) [Gate.Event.settle 1]).res 1
          = some none := by decide
      exact Gate.DoneFrom.step h0 (Gate.DoneFrom.stop h1)

namespace Hover

theorem alistLookup_erase_self {α : Type} (l : List (String × α)) (k : String) :
    alistLookup (alistErase l k) k = none := by
  induction l with
  | nil => rfl
  | cons p rest ih =>
    by_cases h : p.1 = k
    · simpa [alistErase, h]
    · simpa [alistErase, alistLookup, h] using ih

end Hover

namespace Manager

theorem basicHash_ne_empty (content : String) : basicHash content ≠ "" := by
  intro h
  have hdata := congrArg String.data h
  simp [basicHash] at hdata

theorem length_le_one_of_forall_eq {l : List Nat} (hnd : l.Nodup) (x : Nat)
    (hx : ∀ a ∈ l, a = x) : l.length ≤ 1 := by
  match l, hnd, hx with
  | [], _, _ => simp
  | [a], _, _ => simp
  | a :: b :: rest, hnd, hx =>
    exfalso
    have ha := hx a (by simp)
    have hb := hx b (by simp)
    subst ha
    rw [List.nodup_cons] at hnd
    exact hnd.1 (by simp [hb])

theorem aliveCount_le_one {s : ManagerState} (x : Nat)
    (h : ∀ i, i < s.nextCheckId → s.disposedChecks.contains i = false →
      i = x) : aliveCount s ≤ 1 := by
  apply length_le_one_of_forall_eq (List.Nodup.filter _ (List.nodup_range _)) x
  intro a ha
  rw [List.mem_filter, List.mem_range] at ha
  exact h a ha.1 (by simpa using ha.2)

theorem contains_cons_false {l : List Nat} {a i : Nat}
    (h : (a :: l).contains i = false) : i ≠ a ∧ l.contains i = false := by
  simp only [List.contains_cons, Bool.or_eq_false_iff, beq_eq_false_iff_ne]
    at h
  exact ⟨h.1, h.2⟩

end Manager

/-- **C2**: When `checkProject` is called while an operation is active, the
previous operation's runner is disposed and the active-operation slot is
cleared before the new runner is created and installed (the emitted action
sequence is exactly dispose, clear, create, install), and — provided every
runner other than the active one had already been disposed — at most one
runner is alive in every intermediate state. -/
theorem C2_single_active_runner (s : Manager.ManagerState)
    (docs : List (String × String)) (op : Manager.CheckOperation)
    (hop : s.operation = some op)
    (hgood : ∀ i, i < s.nextCheckId →
      s.disposedChecks.contains i = false → i = op.check) :
    Manager.checkProjectActions s docs =
      [.disposeCheck op.check, .clearSlot, .createCheck s.nextCheckId,
       .installOperation ⟨s.nextCheckId, Manager.computeHashes docs⟩]
    ∧ ∀ s' ∈ Manager.trajectory s (Manager.checkProjectActions s docs),
        Manager.aliveCount s' ≤ 1 := by
  have hacts : Manager.checkProjectActions s docs =
      [.disposeCheck op.check, .clearSlot, .createCheck s.nextCheckId,
       .installOperation ⟨s.nextCheckId, Manager.computeHashes docs⟩] := by
    unfold Manager.checkProjectActions
    rw [hop]
    rfl
  refine ⟨hacts, ?_⟩
  intro s' hs'
  rw [hacts] at hs'
  simp only [Manager.trajectory, Manager.applyAction, List.mem_cons,
    List.mem_singleton, List.not_mem_nil, or_false] at hs'
  rcases hs' with rfl | rfl | rfl | rfl | rfl
  · exact Manager.aliveCount_le_one op.check hgood
  · apply Manager.aliveCount_le_one op.check
    intro i hi hc
    exact hgood i hi (Manager.contains_cons_false hc).2
  · apply Manager.aliveCount_le_one op.check
    intro i hi hc
    exact hgood i hi (Manager.contains_cons_false hc).2
  · apply Manager.aliveCount_le_one s.nextCheckId
    intro i hi hc
    have hi' : i < s.nextCheckId + 1 := hi
    obtain ⟨hne, hD⟩ := Manager.contains_cons_false hc
    by_cases hlt : i < s.nextCheckId
    · exact absurd (hgood i hlt hD) hne
    · omega
  · apply Manager.aliveCount_le_one s.nextCheckId
    intro i hi hc
    have hi' : i < s.nextCheckId + 1 := hi
    obtain ⟨hne, hD⟩ := Manager.contains_cons_false hc
    by_cases hlt : i < s.nextCheckId
    · exact absurd (hgood i hlt hD) hne
    · omega

/-- Witness for C2: a state with one active, undisposed runner; the action
list of `checkProject` is dispose, clear, create, install. -/
theorem C2_single_active_runner_witness :
    Manager.checkProjectActions
        ⟨some ⟨0, []⟩, [], 1, []⟩ [("file:///a.php", "<?php")] =
      [.disposeCheck 0, .clearSlot, .createCheck 1,
       .installOperation ⟨1, Manager.computeHashes [("file:///a.php", "<?php")]⟩] :=
  (C2_single_active_runner ⟨some ⟨0, []⟩, [], 1, []⟩
    [("file:///a.php", "<?php")] ⟨0, []⟩ rfl (by decide)).1

/-- **C3**: With an active operation and non-empty content, when every
stored hash is the digest of some content (as `_checkShared` guarantees),
`checkProjectIfFileChanged(uri, content)` is a no-op if the stored hash for
`uri` is absent or equal to `basicHash(content)`, and triggers a full
`checkProject()` if it is present and different. -/
theorem C3_hash_change_detection (s : Manager.ManagerState)
    (uri content : String) (op : Manager.CheckOperation)
    (hop : s.operation = some op) (hc : content ≠ "")
    (hwf : ∀ u h, Hover.alistLookup op.hashes u = some h →
      ∃ c, h = Manager.basicHash c) :
    ((Hover.alistLookup op.hashes uri = none ∨
      Hover.alistLookup op.hashes uri = some (Manager.basicHash content)) →
      Manager.checkProjectIfFileChanged s uri (some content)
        = Manager.CheckDecision.noCheck)
    ∧ (∀ h, Hover.alistLookup op.hashes uri = some h →
        h ≠ Manager.basicHash content →
        Manager.checkProjectIfFileChanged s uri (some content)
          = Manager.CheckDecision.projectCheck) := by
  have hred : Manager.checkProjectIfFileChanged s uri (some content) =
      (if content = "" then Manager.CheckDecision.noCheck
       else
        match Hover.alistLookup op.hashes uri with
        | none => Manager.CheckDecision.noCheck
        | some h =>
          if h ≠ "" ∧ h ≠ Manager.basicHash content then
            Manager.CheckDecision.projectCheck
          else Manager.CheckDecision.noCheck) := by
    unfold Manager.checkProjectIfFileChanged
    rw [hop]
  rw [hred, if_neg hc]
  constructor
  · intro hlk
    rcases hlk with hlk | hlk
    · rw [hlk]
    · rw [hlk]
      show (if Manager.basicHash content ≠ "" ∧
          Manager.basicHash content ≠ Manager.basicHash content then
          Manager.CheckDecision.projectCheck
        else Manager.CheckDecision.noCheck) = Manager.CheckDecision.noCheck
      rw [if_neg]
      intro hcontra
      exact hcontra.2 rfl
  · intro h hlk hne
    rw [hlk]
    obtain ⟨c, rfl⟩ := hwf uri h hlk
    show (if Manager.basicHash c ≠ "" ∧
        Manager.basicHash c ≠ Manager.basicHash content then
        Manager.CheckDecision.projectCheck
      else Manager.CheckDecision.noCheck) = Manager.CheckDecision.projectCheck
    rw [if_pos ⟨Manager.basicHash_ne_empty c, hne⟩]

/-- Witness for C3: a stored hash for `"u"` equal to `basicHash "a"`; equal
content is a no-op, changed content (`"b"`) triggers a project check. -/
theorem C3_hash_change_detection_witness :
    Manager.checkProjectIfFileChanged
        ⟨some ⟨0, [("u", Manager.basicHash "a")]⟩, [], 1, []⟩ "u" (some "a")
      = Manager.CheckDecision.noCheck
    ∧ Manager.checkProjectIfFileChanged
        ⟨some ⟨0, [("u", Manager.basicHash "a")]⟩, [], 1, []⟩ "u" (some "b")
      = Manager.CheckDecision.projectCheck := by
  have hwf : ∀ u h,
      Hover.alistLookup [("u", Manager.basicHash "a")] u = some h →
      ∃ c, h = Manager.basicHash c := by
    intro u h hl
    unfold Hover.alistLookup at hl
    by_cases hu : "u" = u
    · rw [if_pos hu] at hl
      exact ⟨"a", (Option.some.inj hl).symm⟩
    · rw [if_neg hu] at hl
      cases hl
  constructor
  · exact (C3_hash_change_detection
      ⟨some ⟨0, [("u", Manager.basicHash "a")]⟩, [], 1, []⟩ "u" "a"
      ⟨0, [("u", Manager.basicHash "a")]⟩ rfl (by decide) hwf).1
      (Or.inr (by decide))
  · exact (C3_hash_change_detection
      ⟨some ⟨0, [("u", Manager.basicHash "a")]⟩, [], 1, []⟩ "u" "b"
      ⟨0, [("u", Manager.basicHash "a")]⟩ rfl (by decide) hwf).2
      (Manager.basicHash "a") (by decide) (by decide)

/-- **C4, counterexample**: the claim says `checkProjectIfFileChanged(uri,
undefined)` never triggers a check for any prior state, but in the state
with no active `CheckOperation` the very first branch of the method
(lines 216-218) delegates to `checkProject()` before `fileContent` is ever
inspected, so a check is triggered. -/
theorem C4_counterexample_no_operation :
    Manager.checkProjectIfFileChanged ⟨none, [], 0, []⟩ "file:///a.php" none
      = Manager.CheckDecision.projectCheck := rfl

/-- **C4, amended**: `checkProjectIfFileChanged(uri, undefined)` never
triggers a check *provided a `CheckOperation` is active*; with no active
operation it delegates to `checkProject()`, which does start a check. -/
theorem C4_undefined_content (s : Manager.ManagerState) (uri : String) :
    (∀ op, s.operation = some op →
      Manager.checkProjectIfFileChanged s uri none
        = Manager.CheckDecision.noCheck)
    ∧ (s.operation = none →
      Manager.checkProjectIfFileChanged s uri none
        = Manager.CheckDecision.projectCheck) := by
  constructor
  · intro op hop
    unfold Manager.checkProjectIfFileChanged
    rw [hop]
  · intro hop
    unfold Manager.checkProjectIfFileChanged
    rw [hop]

/-- Witness for the amended C4: with an active operation, `undefined`
content is a no-op; with none, a project check starts. -/
theorem C4_undefined_content_witness :
    Manager.checkProjectIfFileChanged ⟨some ⟨0, []⟩, [], 1, []⟩ "u" none
      = Manager.CheckDecision.noCheck
    ∧ Manager.checkProjectIfFileChanged ⟨none, [], 1, []⟩ "u" none
      = Manager.CheckDecision.projectCheck :=
  ⟨(C4_undefined_content ⟨some ⟨0, []⟩, [], 1, []⟩ "u").1 ⟨0, []⟩ rfl,
   (C4_undefined_content ⟨none, [], 1, []⟩ "u").2 rfl⟩

/-- **C5**: When the timeout deadline fires before the check operation
settles, the `onTimeout` handler first disposes the runner, the progress
surface is finished with the KILLED status, the overall result is the
distinguished killed result, the deadline is the file timeout for
file-scoped checks and the project timeout for project-scoped checks, and
no action forcibly stops the in-flight operation. -/
theorem C5_timeout_kill_path (ct : Manager.CheckType)
    (config : Manager.TimeoutConfig) (opResult : Manager.CheckResult) :
    (Manager.checkSharedOutcome ct config true opResult).1
      = Manager.timeoutFor ct config
    ∧ Manager.timeoutFor .file config = config.timeout
    ∧ Manager.timeoutFor .project config = config.projectTimeout
    ∧ (Manager.checkSharedOutcome ct config true opResult).2.1
      = [.disposeRunner, .notifyTimeout, .finishProgress .killed,
         .finishProgress .killed, .logCompleted]
    ∧ (Manager.checkSharedOutcome ct config true opResult).2.2
      = Manager.CheckResult.killed
    ∧ Manager.SharedAction.stopOperation
        ∉ (Manager.checkSharedOutcome ct config true opResult).2.1 := by
  refine ⟨rfl, rfl, rfl, rfl, rfl, ?_⟩
  intro hmem
  simp [Manager.checkSharedOutcome] at hmem

/-- **C6**: `_getFileReport` returns no report and leaves the state
untouched when no reservation exists; with a reservation it removes the
reservation first, yields no report on a failed read/parse, yields the
parsed record for the reserved source path on success, and a second
consecutive consume for the same key always yields no report. -/
theorem C6_consume_report_once (world : String → Option Hover.ReporterFile)
    (s : Hover.HooksState) (uri : String) :
    (Hover.alistLookup s.operationMap uri = none →
      Hover.getFileReport world s uri = (none, s))
    ∧ (∀ m, Hover.alistLookup s.operationMap uri = some m →
        Hover.alistLookup
          (Hover.getFileReport world s uri).2.operationMap uri = none
        ∧ (world m.reportPath = none →
            (Hover.getFileReport world s uri).1 = none)
        ∧ (∀ parsed, world m.reportPath = some parsed →
            (Hover.getFileReport world s uri).1
              = Hover.alistLookup parsed m.sourceFilePath))
    ∧ (Hover.getFileReport world
        (Hover.getFileReport world s uri).2 uri).1 = none := by
  cases hlk : Hover.alistLookup s.operationMap uri with
  | none =>
    have hred : Hover.getFileReport world s uri = (none, s) := by
      unfold Hover.getFileReport
      rw [hlk]
    refine ⟨fun _ => hred, ?_, ?_⟩
    · intro m hm
      cases hm
    · rw [hred, hred]
  | some m =>
    cases hw : world m.reportPath with
    | none =>
      have hred : Hover.getFileReport world s uri
          = (none, ⟨Hover.alistErase s.operationMap uri⟩) := by
        unfold Hover.getFileReport
        rw [hlk]
        show (match world m.reportPath with
          | none => (none, ⟨Hover.alistErase s.operationMap uri⟩)
          | some parsed =>
            (Hover.alistLookup parsed m.sourceFilePath,
             ⟨Hover.alistErase s.operationMap uri⟩))
          = (none, (⟨Hover.alistErase s.operationMap uri⟩ : Hover.HooksState))
        rw [hw]
      have hred2 : Hover.getFileReport world
          (⟨Hover.alistErase s.operationMap uri⟩ : Hover.HooksState) uri
          = (none, ⟨Hover.alistErase s.operationMap uri⟩) := by
        unfold Hover.getFileReport
        rw [Hover.alistLookup_erase_self]
      refine ⟨?_, ?_, ?_⟩
      · intro h
        cases h
      · intro m' hm'
        injection hm' with hm'
        subst hm'
        refine ⟨?_, fun _ => by rw [hred], ?_⟩
        · rw [hred]
          exact Hover.alistLookup_erase_self _ _
        · intro parsed hparsed
          rw [hparsed] at hw
          cases hw
      · rw [hred, hred2]
    | some parsed =>
      have hred : Hover.getFileReport world s uri
          = (Hover.alistLookup parsed m.sourceFilePath,
             ⟨Hover.alistErase s.operationMap uri⟩) := by
        unfold Hover.getFileReport
        rw [hlk]
        show (match world m.reportPath with
          | none => (none, ⟨Hover.alistErase s.operationMap uri⟩)
          | some parsed =>
            (Hover.alistLookup parsed m.sourceFilePath,
             ⟨Hover.alistErase s.operationMap uri⟩))
          = (Hover.alistLookup parsed m.sourceFilePath,
             (⟨Hover.alistErase s.operationMap uri⟩ : Hover.HooksState))
        rw [hw]
      have hred2 : Hover.getFileReport world
          (⟨Hover.alistErase s.operationMap uri⟩ : Hover.HooksState) uri
          = (none, ⟨Hover.alistErase s.operationMap uri⟩) := by
        unfold Hover.getFileReport
        rw [Hover.alistLookup_erase_self]
      refine ⟨?_, ?_, ?_⟩
      · intro h
        cases h
      · intro m' hm'
        injection hm' with hm'
        subst hm'
        refine ⟨?_, ?_, ?_⟩
        · rw [hred]
          exact Hover.alistLookup_erase_self _ _
        · intro hw'
          rw [hw'] at hw
          cases hw
        · intro parsed' hparsed'
          rw [hparsed'] at hw
          injection hw with hw
          subst hw
          rw [hred]
      · rw [hred, hred2]

/-- Witness for C6: one reservation for key `"k"` pointing at a report that
parses to a record for `/src/a.php`; after the first consume the
reservation is gone and a second consume yields no report. -/
theorem C6_consume_report_once_witness :
    Hover.alistLookup
      (Hover.getFileReport
        (fun p => if p = "/tmp/rep.json"
          then some [("/src/a.php", ⟨1, []⟩)] else none)
        ⟨[("k", ⟨"/tmp/rep.json", "/src/a.php"⟩)]⟩ "k").2.operationMap "k"
      = none
    ∧ (Hover.getFileReport
        (fun p => if p = "/tmp/rep.json"
          then some [("/src/a.php", ⟨1, []⟩)] else none)
        (Hover.getFileReport
          (fun p => if p = "/tmp/rep.json"
            then some [("/src/a.php", ⟨1, []⟩)] else none)
          ⟨[("k", ⟨"/tmp/rep.json", "/src/a.php"⟩)]⟩ "k").2 "k").1 = none := by
  refine ⟨((C6_consume_report_once
      (fun p => if p = "/tmp/rep.json"
        then some [("/src/a.php", ⟨1, []⟩)] else none)
      ⟨[("k", ⟨"/tmp/rep.json", "/src/a.php"⟩)]⟩ "k").2.1
      ⟨"/tmp/rep.json", "/src/a.php"⟩ (by decide)).1, ?_⟩
  exact (C6_consume_report_once
      (fun p => if p = "/tmp/rep.json"
        then some [("/src/a.php", ⟨1, []⟩)] else none)
      ⟨[("k", ⟨"/tmp/rep.json", "/src/a.php"⟩)]⟩ "k").2.2

/-- **C7, counterexample**: the claim describes the record's interval as
half-open with the *start position inclusive*, so a query exactly at the
start position (line 2, char 4, which satisfies `start.line = 2`,
`start.char ≤ 4`, `4 < end.char`) would have to return the record — but the
matcher uses a strict `start.char < character` comparison (line 101), so
the code returns no match there. -/
theorem C7_counterexample_start_not_inclusive :
    Hover.findHover [⟨"int", "x", ⟨⟨2, 4⟩, ⟨2, 6⟩⟩⟩] 2 4 = none
    ∧ ((2 : Nat) = 2 ∧ (4 : Nat) ≤ 4 ∧ (4 : Nat) < 6) := by
  decide

/-- **C7, amended**: after the check is done, the hover query returns the
first record of the queried file whose start line equals the query line and
whose char interval contains the query char *exclusively at both ends*
(`start.char < char < end.char`); in particular for the record with start
`{line 2, char 4}` and end `{line 2, char 6}`, a query at char 5 returns
the record and a query at char 6 (or at the start char 4) returns no
match. -/
theorem C7_hover_interval :
    (∀ (data : List Hover.VariableData) (line char : Nat)
      (v : Hover.VariableData),
      Hover.findHover data line char = some v →
      v.pos.start.line = line ∧ v.pos.start.char < char ∧
        char < v.pos.endPos.char)
    ∧ (∀ (d1 d2 : List Hover.VariableData) (line char : Nat)
        (v : Hover.VariableData),
        (∀ u ∈ d1, Hover.variableMatches u line char = false) →
        Hover.variableMatches v line char = true →
        Hover.findHover (d1 ++ v :: d2) line char = some v)
    ∧ Hover.findHover [⟨"int", "x", ⟨⟨2, 4⟩, ⟨2, 6⟩⟩⟩] 2 5
        = some ⟨"int", "x", ⟨⟨2, 4⟩, ⟨2, 6⟩⟩⟩
    ∧ Hover.findHover [⟨"int", "x", ⟨⟨2, 4⟩, ⟨2, 6⟩⟩⟩] 2 6 = none
    ∧ Hover.findHover [⟨"int", "x", ⟨⟨2, 4⟩, ⟨2, 6⟩⟩⟩] 2 4 = none := by
  refine ⟨?_, ?_, by decide, by decide, by decide⟩
  · intro data line char v h
    induction data with
    | nil => cases h
    | cons u rest ih =>
      unfold Hover.findHover at h
      by_cases hm : Hover.variableMatches u line char
      · rw [if_pos hm] at h
        injection h with h
        subst h
        simp only [Hover.variableMatches, Bool.and_eq_true, beq_iff_eq,
          decide_eq_true_eq] at hm
        exact ⟨hm.1.1, hm.1.2, hm.2⟩
      · rw [if_neg hm] at h
        exact ih h
  · intro d1 d2 line char v hall hv
    induction d1 with
    | nil =>
      show Hover.findHover (v :: d2) line char = some v
      unfold Hover.findHover
      rw [if_pos hv]
    | cons u rest ih =>
      show Hover.findHover (u :: (rest ++ v :: d2)) line char = some v
      unfold Hover.findHover
      rw [if_neg]
      · exact ih (fun u' hu' => hall u' (by simp [hu']))
      · rw [hall u (by simp)]
        exact Bool.false_ne_true

/-- Witness for the amended C7: applying the characterization and the
first-match completeness at the scenario record and query (2,5). -/
theorem C7_hover_interval_witness :
    ((⟨"int", "x", ⟨⟨2, 4⟩, ⟨2, 6⟩⟩⟩ : Hover.VariableData).pos.start.line = 2
      ∧ (⟨"int", "x", ⟨⟨2, 4⟩, ⟨2, 6⟩⟩⟩ :
          Hover.VariableData).pos.start.char < 5
      ∧ 5 < (⟨"int", "x", ⟨⟨2, 4⟩, ⟨2, 6⟩⟩⟩ :
          Hover.VariableData).pos.endPos.char)
    ∧ Hover.findHover ([] ++ ⟨"int", "x", ⟨⟨2, 4⟩, ⟨2, 6⟩⟩⟩ :: []) 2 5
        = some ⟨"int", "x", ⟨⟨2, 4⟩, ⟨2, 6⟩⟩⟩ :=
  ⟨C7_hover_interval.1 [⟨"int", "x", ⟨⟨2, 4⟩, ⟨2, 6⟩⟩⟩] 2 5
      ⟨"int", "x", ⟨⟨2, 4⟩, ⟨2, 6⟩⟩⟩ (by decide),
   C7_hover_interval.2.1 [] [] 2 5 ⟨"int", "x", ⟨⟨2, 4⟩, ⟨2, 6⟩⟩⟩
      (fun u hu => absurd hu (List.not_mem_nil u)) (by decide)⟩

/-- **C8**: `dispose()` disposes the active runner (if any) and clears the
active-operation slot while leaving `_filePromises` unchanged; `clear()`
produces the same state and additionally instructs the report-provider hook
to discard retained report state; neither emits a wait for the runner's
teardown. -/
theorem C8_dispose_clear_frame (s : Manager.ManagerState) :
    (Manager.dispose s).2.operation = none
    ∧ (Manager.dispose s).2.filePromises = s.filePromises
    ∧ (∀ op, s.operation = some op →
        Manager.MAction.disposeCheck op.check ∈ (Manager.dispose s).1)
    ∧ Manager.MAction.clearReport ∉ (Manager.dispose s).1
    ∧ (Manager.clear s).2 = (Manager.dispose s).2
    ∧ Manager.MAction.clearReport ∈ (Manager.clear s).1
    ∧ Manager.MAction.awaitTeardown ∉ (Manager.dispose s).1
    ∧ Manager.MAction.awaitTeardown ∉ (Manager.clear s).1 := by
  cases hop : s.operation with
  | none =>
    have hd : Manager.dispose s = ([], { s with operation := none }) := by
      unfold Manager.dispose
      rw [hop]
    refine ⟨?_, ?_, ?_, ?_, ?_, ?_, ?_, ?_⟩
    · rw [hd]
    · rw [hd]
    · intro op h
      cases h
    · rw [hd]
      intro h
      simp at h
    · show (Manager.dispose s).2 = (Manager.dispose s).2
      rfl
    · show Manager.MAction.clearReport ∈ (Manager.dispose s).1 ++ [.clearReport]
      simp
    · rw [hd]
      intro h
      simp at h
    · show Manager.MAction.awaitTeardown
        ∉ (Manager.dispose s).1 ++ [.clearReport]
      rw [hd]
      intro h
      simp at h
  | some op =>
    have hd : Manager.dispose s =
        ([.disposeCheck op.check],
         { s with operation := none,
                  disposedChecks := op.check :: s.disposedChecks }) := by
      unfold Manager.dispose
      rw [hop]
    refine ⟨?_, ?_, ?_, ?_, ?_, ?_, ?_, ?_⟩
    · rw [hd]
    · rw [hd]
    · intro op' h
      injection h with h
      subst h
      rw [hd]
      exact List.mem_singleton.mpr rfl
    · rw [hd]
      intro h
      simp at h
    · show (Manager.dispose s).2 = (Manager.dispose s).2
      rfl
    · show Manager.MAction.clearReport ∈ (Manager.dispose s).1 ++ [.clearReport]
      simp
    · rw [hd]
      intro h
      simp at h
    · show Manager.MAction.awaitTeardown
        ∉ (Manager.dispose s).1 ++ [.clearReport]
      rw [hd]
      intro h
      simp at h

/-- Witness for C8: with runner 0 active, `dispose` emits its disposal. -/
theorem C8_dispose_clear_frame_witness :
    Manager.MAction.disposeCheck 0
      ∈ (Manager.dispose ⟨some ⟨0, []⟩, [("k", 0)], 1, []⟩).1 :=
  (C8_dispose_clear_frame ⟨some ⟨0, []⟩, [("k", 0)], 1, []⟩).2.2.1 ⟨0, []⟩ rfl

/-- **C9**: the hover matcher compares the query line only against the
record's start line — a match forces the query line to equal
`pos.start.line` exactly — and the matcher's value never depends on the
record's end line, so a multi-line interval can only match on its start
line. -/
theorem C9_match_uses_start_line_only :
    (∀ (v : Hover.VariableData) (line char : Nat),
      Hover.variableMatches v line char = true → line = v.pos.start.line)
    ∧ (∀ (v : Hover.VariableData) (line char endLine : Nat),
      Hover.variableMatches v line char
        = Hover.variableMatches
            ⟨v.typeDescription, v.name,
             ⟨v.pos.start, ⟨endLine, v.pos.endPos.char⟩⟩⟩ line char) := by
  constructor
  · intro v line char h
    simp only [Hover.variableMatches, Bool.and_eq_true, beq_iff_eq,
      decide_eq_true_eq] at h
    exact h.1.1.symm
  · intro v line char endLine
    rfl

/-- Witness for C9: the scenario record matched at (2,5) forces the query
line 2 to be the record's start line. -/
theorem C9_match_uses_start_line_only_witness :
    (2 : Nat)
      = (⟨"int", "x", ⟨⟨2, 4⟩, ⟨2, 6⟩⟩⟩ :
          Hover.VariableData).pos.start.line :=
  C9_match_uses_start_line_only.1 ⟨"int", "x", ⟨⟨2, 4⟩, ⟨2, 6⟩⟩⟩ 2 5
    (by decide)

/-- **C10**: even when the polling wait resolves with `checkDone`, if the
cancellation token is observed signalled after the report file has been
read but before the records are scanned, the hover handler returns `null`
(no answer); had the token not been signalled there, the very same state
would have produced the scan's result. -/
theorem C10_cancel_after_read (wf : String)
    (reporterFile : Hover.ReporterFile) (fsPath : String) (line char : Nat) :
    Hover.hoverHandler (some wf) false .checkDone (some reporterFile) true
      fsPath line char = .ok none
    ∧ Hover.hoverHandler (some wf) false .checkDone (some reporterFile) false
        fsPath line char
      = .ok (Hover.findHover
          (match Hover.alistLookup reporterFile fsPath with
           | some report => report.data
           | none => []) line char) :=
  ⟨rfl, rfl⟩

/-- Witness for C5: a file-scoped check whose timer fires yields the killed
result. -/
theorem C5_timeout_kill_path_witness :
    (Manager.checkSharedOutcome .file ⟨100, 200⟩ true .success).2.2
      = Manager.CheckResult.killed :=
  (C5_timeout_kill_path .file ⟨100, 200⟩ .success).2.2.2.2.1

/-- Witness for C10: a reporter file containing a record that matches the
query still yields no answer when cancellation is observed after the
read. -/
theorem C10_cancel_after_read_witness :
    Hover.hoverHandler (some "/ws") false .checkDone
      (some [("/src/a.php", ⟨1, [⟨"int", "x", ⟨⟨2, 4⟩, ⟨2, 6⟩⟩⟩]⟩)]) true
      "/src/a.php" 2 5 = .ok none :=
  (C10_cancel_after_read "/ws"
    [("/src/a.php", ⟨1, [⟨"int", "x", ⟨⟨2, 4⟩, ⟨2, 6⟩⟩⟩]⟩)]
    "/src/a.php" 2 5).1
